import Mathlib

/-!
Shallow embedding of the cellular-automaton engine in `src/main.rs`
(crate `cellulars`).  The program is a 2-state, Moore-neighborhood,
toroidal 2D automaton on a fixed 640x480 grid:

* `cell::CellState`, `cell::RuleState`, `cell::InputState` and the
  `From` conversions between them (the neighborhood codec);
* `cell::Rules = HashMap<InputState, CellState>`, modelled as the
  partial map `InputState -> Option CellState` (insert = pointwise
  override, `get` = application; the `with_capacity(362880)` argument
  is a capacity hint with no semantic content);
* `randomize_rules`, `World::new`, `World::update`, `World::draw`, and
  the grid mutations performed by the `K` key handler in `main`.

Machine integers: all `u32`/`usize` arithmetic is modelled on `Nat`.
The only place where overflow is reachable is the `self.generation += 1`
counter (a `u32`), modelled with an explicit `% 2^32`.  The bit
operations of the codec act on values below `2^32` throughout the
program (loop indices are below `362880`), so they are modelled with
plain `Nat` shifts and masks.

Randomness: the program draws from `ChaCha8Rng::seed_from_u64(seed)`
(in `randomize_rules`) and from `rand::random` (row seeding in
`World::new`, key handlers).  A generator is modelled as the stream of
its Bernoulli results, a function `Nat -> CellState` giving the result
of the draw made on loop iteration `i`; `ChaCha8Rng` derives that
stream from the 64-bit seed alone (never from system entropy), which is
reflected by passing the stream, respectively a function of the seed,
as an explicit parameter.
-/

namespace Cellulars

/-- `cell::CellState`: a cell is `On` or `Off`. -/
inductive CellState where
  | On : CellState
  | Off : CellState
deriving DecidableEq

/-- `cell::RuleState(pub u32)`: the integer encoding of a neighborhood. -/
structure RuleState where
  val : Nat
deriving DecidableEq

/-- `cell::InputState(pub [CellState; 9])`: an ordered 9-tuple of cell
states, in the fixed order upper-left, upper, upper-right, left,
center, right, lower-left, lower, lower-right (array indices 0..8). -/
structure InputState where
  s0 : CellState
  s1 : CellState
  s2 : CellState
  s3 : CellState
  s4 : CellState
  s5 : CellState
  s6 : CellState
  s7 : CellState
  s8 : CellState
deriving DecidableEq

/-- `impl From<&CellState> for u32`: `On -> 1`, `Off -> 0`. -/
def cellToU32 : CellState → Nat
  | CellState.On => 1
  | CellState.Off => 0

/-- `impl From<[CellState; 9]> for RuleState` (the encode direction):
or-together bit `i` = `cellToU32` of element `i`, shifted by `i`. -/
def ruleStateOfCells (x : InputState) : RuleState :=
  RuleState.mk (cellToU32 x.s0 <<< 0 |||
    cellToU32 x.s1 <<< 1 |||
    cellToU32 x.s2 <<< 2 |||
    cellToU32 x.s3 <<< 3 |||
    cellToU32 x.s4 <<< 4 |||
    cellToU32 x.s5 <<< 5 |||
    cellToU32 x.s6 <<< 6 |||
    cellToU32 x.s7 <<< 7 |||
    cellToU32 x.s8 <<< 8)

/-- `impl From<u32> for InputState` (the decode direction): element `k`
is `On` iff `(value >> k) & 0x1 == 1`, for `k = 0..8`.  Only bits 0-8
of the value are read. -/
def inputStateOfU32 (value : Nat) : InputState :=
  InputState.mk
    (if (value >>> 0) &&& 1 = 1 then CellState.On else CellState.Off)
    (if (value >>> 1) &&& 1 = 1 then CellState.On else CellState.Off)
    (if (value >>> 2) &&& 1 = 1 then CellState.On else CellState.Off)
    (if (value >>> 3) &&& 1 = 1 then CellState.On else CellState.Off)
    (if (value >>> 4) &&& 1 = 1 then CellState.On else CellState.Off)
    (if (value >>> 5) &&& 1 = 1 then CellState.On else CellState.Off)
    (if (value >>> 6) &&& 1 = 1 then CellState.On else CellState.Off)
    (if (value >>> 7) &&& 1 = 1 then CellState.On else CellState.Off)
    (if (value >>> 8) &&& 1 = 1 then CellState.On else CellState.Off)

/-- `cell::Rules = HashMap<InputState, CellState>`, as a partial map. -/
def Rules : Type := InputState → Option CellState

/-- `HashMap::insert`: later inserts override earlier ones at the same key. -/
def insertRule (rules : Rules) (k : InputState) (v : CellState) : Rules :=
  fun q => if q = k then some v else rules q

/-- `randomize_rules(seed)`: 362880 iterations; on iteration `i` one
Bernoulli draw (`rng.gen::<f32>() < 0.1` on `ChaCha8Rng::seed_from_u64(seed)`,
abstracted as `draws i`) is inserted at key `i.into() : InputState`. -/
def randomize_rules (draws : Nat → CellState) : Rules :=
  (List.range 362880).foldl
    (fun rules i => insertRule rules (inputStateOfU32 i) (draws i))
    (fun _ => none)

set_option maxRecDepth 8192 in
/-- Decoding inverts encoding on every 9-tuple (512 cases). -/
theorem decode_encode (x : InputState) :
    inputStateOfU32 (ruleStateOfCells x).val = x := by
  obtain ⟨a, b, c, d, e, f, g, h, i⟩ := x
  cases a <;> cases b <;> cases c <;> cases d <;> cases e <;>
    cases f <;> cases g <;> cases h <;> cases i <;> rfl

set_option maxRecDepth 8192 in
/-- Encoding a 9-tuple always lands in `[0, 512)`. -/
theorem encode_lt (x : InputState) : (ruleStateOfCells x).val < 512 := by
  obtain ⟨a, b, c, d, e, f, g, h, i⟩ := x
  cases a <;> cases b <;> cases c <;> cases d <;> cases e <;>
    cases f <;> cases g <;> cases h <;> cases i <;> decide

set_option maxRecDepth 100000 in
/-- Encoding inverts decoding on values below 512. -/
theorem encode_decode : ∀ i < 512, (ruleStateOfCells (inputStateOfU32 i)).val = i := by
  decide

/-- Bit `k` of `v % 512` agrees with bit `k` of `v` for `k < 9`. -/
theorem shiftRight_and_one_mod (v k : Nat) (hk : k < 9) :
    ((v % 512) >>> k) &&& 1 = (v >>> k) &&& 1 := by
  have h9 : k + (9 - k) = 9 := by omega
  have h512 : (512 : Nat) = 2 ^ k * 2 ^ (9 - k) := by
    rw [← pow_add, h9]
    norm_num
  rw [Nat.and_one_is_mod, Nat.and_one_is_mod, Nat.shiftRight_eq_div_pow,
    Nat.shiftRight_eq_div_pow, h512, Nat.mod_mul_right_div_self]
  exact Nat.mod_mod_of_dvd _ (dvd_pow_self 2 (by omega))

/-- The u32-to-InputState conversion reads only bits 0 through 8. -/
theorem inputStateOfU32_mod (v : Nat) :
    inputStateOfU32 (v % 512) = inputStateOfU32 v := by
  unfold inputStateOfU32
  rw [shiftRight_and_one_mod v 0 (by omega), shiftRight_and_one_mod v 1 (by omega),
    shiftRight_and_one_mod v 2 (by omega), shiftRight_and_one_mod v 3 (by omega),
    shiftRight_and_one_mod v 4 (by omega), shiftRight_and_one_mod v 5 (by omega),
    shiftRight_and_one_mod v 6 (by omega), shiftRight_and_one_mod v 7 (by omega),
    shiftRight_and_one_mod v 8 (by omega)]

/-- `inputStateOfU32 i = x` exactly when `i` is congruent to the
encoding of `x` modulo 512. -/
theorem inputStateOfU32_eq_iff (i : Nat) (x : InputState) :
    inputStateOfU32 i = x ↔ i % 512 = (ruleStateOfCells x).val := by
  constructor
  · intro h
    have h1 : inputStateOfU32 (i % 512) = x := by rw [inputStateOfU32_mod]; exact h
    have h2 := encode_decode (i % 512) (Nat.mod_lt i (by omega))
    rw [h1] at h2
    exact h2.symm
  · intro h
    rw [← inputStateOfU32_mod, h, decode_encode]

/-- In a foldl of inserts over `List.range n`, the last insert at a key
wins: if `inputStateOfU32 j = x`, `j < n`, and no later index decodes
to `x`, the final value at `x` is the draw made at `j`. -/
theorem randFold_last_wins (draws : Nat → CellState) (x : InputState) (j : Nat) :
    ∀ (n : Nat) (init : Rules), j < n → inputStateOfU32 j = x →
      (∀ i, j < i → i < n → inputStateOfU32 i ≠ x) →
      ((List.range n).foldl
        (fun rules i => insertRule rules (inputStateOfU32 i) (draws i)) init) x
        = some (draws j) := by
  intro n
  induction n with
  | zero => intro init hj _ _; exact absurd hj (Nat.not_lt_zero j)
  | succ n ih =>
      intro init hj hdec hmax
      rw [List.range_succ, List.foldl_append]
      simp only [List.foldl_cons, List.foldl_nil, insertRule]
      by_cases hxn : x = inputStateOfU32 n
      · rcases Nat.lt_succ_iff_lt_or_eq.mp hj with h | h
        · exact absurd hxn.symm (hmax n h (Nat.lt_succ_self n))
        · subst h
          rw [if_pos hxn]
      · rw [if_neg hxn]
        have hj' : j < n := by
          rcases Nat.lt_succ_iff_lt_or_eq.mp hj with h | h
          · exact h
          · exact absurd (h ▸ hdec).symm hxn
        exact ih init hj' hdec (fun i h1 h2 => hmax i h1 (Nat.lt_succ_of_lt h2))

/-- Closed form of a `randomize_rules` lookup: the value stored at key
`x` is the draw made at the largest loop index below 362880 that is
congruent to the encoding of `x` modulo 512. -/
theorem randomize_rules_eq_last (draws : Nat → CellState) (x : InputState) :
    randomize_rules draws x =
      some (draws ((ruleStateOfCells x).val +
        512 * ((362879 - (ruleStateOfCells x).val) / 512))) := by
  have he : (ruleStateOfCells x).val < 512 := encode_lt x
  set e := (ruleStateOfCells x).val with hedef
  set q := (362879 - e) / 512 with hqdef
  have hq_le : 512 * q ≤ 362879 - e := by
    rw [hqdef, Nat.mul_comm]
    exact Nat.div_mul_le_self _ _
  have hq_lt : 362879 - e < 512 * q + 512 := by
    have hdm := Nat.div_add_mod (362879 - e) 512
    have hm : (362879 - e) % 512 < 512 := Nat.mod_lt _ (by omega)
    omega
  have hj_lt : e + 512 * q < 362880 := by omega
  have hj_mod : (e + 512 * q) % 512 = e := by
    rw [Nat.add_mul_mod_self_left]
    exact Nat.mod_eq_of_lt he
  have hj_dec : inputStateOfU32 (e + 512 * q) = x :=
    (inputStateOfU32_eq_iff _ x).mpr (by rw [hj_mod, hedef])
  have hmax : ∀ i, e + 512 * q < i → i < 362880 → inputStateOfU32 i ≠ x := by
    intro i h1 h2 hdeci
    have hi_mod : i % 512 = e := by
      have := (inputStateOfU32_eq_iff i x).mp hdeci
      rw [← hedef] at this
      exact this
    have hdm := Nat.div_add_mod i 512
    have hk_le : i / 512 ≤ q := by
      rw [hqdef]
      rw [Nat.le_div_iff_mul_le (by omega : 0 < 512)]
      omega
    omega
  exact randFold_last_wins draws x (e + 512 * q) 362880 (fun _ => none) hj_lt hj_dec hmax

/-- `const WIDTH: u32 = 640` (as `WIDTH_USIZE`). -/
def WIDTH : Nat := 640

/-- `const HEIGHT: u32 = 480` (as `HEIGHT_USIZE`). -/
def HEIGHT : Nat := 480

/-- `struct World`: the grid `rows` (a `HEIGHT x WIDTH` array, modelled
as a total function on indices, of which only `row < H`, `col < W` are
meaningful), the rule table, and the `u32` generation counter.  All
grid operations below are parameterized by the dimensions `W`, `H`;
the program instantiates them at `WIDTH`, `HEIGHT`. -/
structure World where
  rows : Nat → Nat → CellState
  rules : Rules
  generation : Nat

/-- A single array-element assignment `rows[r][c] = s`. -/
def setCell (rows : Nat → Nat → CellState) (r c : Nat) (s : CellState) :
    Nat → Nat → CellState :=
  fun r' c' => if r' = r ∧ c' = c then s else rows r' c'

/-- One row-filling loop `for j in 0..n { rows[i][j] = v(j) }`. -/
def setRowStep (i : Nat) (v : Nat → CellState) :
    (Nat → Nat → CellState) → Nat → (Nat → Nat → CellState) :=
  fun g j => setCell g i j (v j)

/-- `World::new()`: rules from `randomize_rules(0)` (stream abstracted
as `ruleDraws`); grid initialized all-`Off`, then row 0 is filled with
independent coin flips `rand::random()` (abstracted as `rowDraws`);
generation starts at 0. -/
def World.new (W : Nat) (ruleDraws rowDraws : Nat → CellState) : World :=
  { rows := (List.range W).foldl (setRowStep 0 rowDraws) (fun _ _ => CellState.Off)
    rules := randomize_rules ruleDraws
    generation := 0 }

/-- One iteration of the outer loop of the `K` key handler: clear row `i`. -/
def clearRowStep (W : Nat) :
    (Nat → Nat → CellState) → Nat → (Nat → Nat → CellState) :=
  fun g i => (List.range W).foldl (setRowStep i (fun _ => CellState.Off)) g

/-- The `K` key handler in `main`: the double loop
`for i in 0..HEIGHT { for j in 0..WIDTH { rows[i][j] = Off } }`.
It touches neither the rule table nor the generation counter. -/
def World.clear (W H : Nat) (w : World) : World :=
  { w with rows := (List.range H).foldl (clearRowStep W) w.rows }

/-- `match self.rules.get(&state.into())`: the stored output, or `Off`
when the table has no entry. -/
def lookupOrOff (rules : Rules) (x : InputState) : CellState :=
  match rules x with
  | some s => s
  | none => CellState.Off

/-- The neighbor gathering of `World::update`, exactly as the source
computes the four wrapped indices with `if` tests, and the 9-element
`state` array in source order (upper-left, upper, upper-right, left,
center, right, lower-left, lower, lower-right). -/
def neighborhood (W H : Nat) (rows : Nat → Nat → CellState) (row col : Nat) :
    InputState :=
  let leftX := if col = 0 then W - 1 else col - 1
  let rightX := if col = W - 1 then 0 else col + 1
  let upperY := if row = 0 then H - 1 else row - 1
  let lowerY := if row = H - 1 then 0 else row + 1
  InputState.mk
    (rows upperY leftX) (rows upperY col) (rows upperY rightX)
    (rows row leftX) (rows row col) (rows row rightX)
    (rows lowerY leftX) (rows lowerY col) (rows lowerY rightX)

/-- `World::update`: bump the `u32` generation counter, then compute
`next_state` (initialized all-`Off`) cell by cell from the pre-step
grid — the loop `for i in 0..W*H` visits exactly the in-range pairs
`(i / W, i % W)` — and finally replace `self.rows` wholesale.  In this
functional model the scratch buffer is the new `rows` function, every
neighborhood being read from the old `w.rows`. -/
def World.update (W H : Nat) (w : World) : World :=
  { rows := fun row col =>
      if row < H ∧ col < W then
        lookupOrOff w.rules (neighborhood W H w.rows row col)
      else CellState.Off
    rules := w.rules
    generation := (w.generation + 1) % 4294967296 }

/-- Modelled from the spec's wording for the wrapped upper/left index:
`row - 1` taken modulo the dimension, i.e. `(row + n - 1) % n`. -/
theorem wrap_pred (k n : Nat) (h : k < n) :
    (if k = 0 then n - 1 else k - 1) = (k + n - 1) % n := by
  by_cases h0 : k = 0
  · subst h0
    rw [if_pos rfl, Nat.mod_eq_of_lt (by omega)]
    omega
  · rw [if_neg h0]
    have e : k + n - 1 = (k - 1) + n := by omega
    rw [e, Nat.add_mod_right, Nat.mod_eq_of_lt (by omega)]

/-- Modelled from the spec's wording for the wrapped lower/right index:
`row + 1` taken modulo the dimension. -/
theorem wrap_succ (k n : Nat) (h : k < n) :
    (if k = n - 1 then 0 else k + 1) = (k + 1) % n := by
  by_cases h0 : k = n - 1
  · rw [if_pos h0]
    have e : k + 1 = n := by omega
    rw [e, Nat.mod_self]
  · rw [if_neg h0, Nat.mod_eq_of_lt (by omega)]

/-- Modelled from the spec: the 9 neighbor states gathered with both
coordinates wrapped by explicit modulo arithmetic. -/
def neighborhoodMod (W H : Nat) (rows : Nat → Nat → CellState) (row col : Nat) :
    InputState :=
  InputState.mk
    (rows ((row + H - 1) % H) ((col + W - 1) % W))
    (rows ((row + H - 1) % H) col)
    (rows ((row + H - 1) % H) ((col + 1) % W))
    (rows row ((col + W - 1) % W))
    (rows row col)
    (rows row ((col + 1) % W))
    (rows ((row + 1) % H) ((col + W - 1) % W))
    (rows ((row + 1) % H) col)
    (rows ((row + 1) % H) ((col + 1) % W))

/-- On in-range cells the source's `if`-style wrapping gathers exactly
the spec's modulo-wrapped neighborhood. -/
theorem neighborhood_eq_mod (W H : Nat) (rows : Nat → Nat → CellState)
    (row col : Nat) (hr : row < H) (hc : col < W) :
    neighborhood W H rows row col = neighborhoodMod W H rows row col := by
  unfold neighborhood neighborhoodMod
  rw [wrap_pred col W hc, wrap_succ col W hc, wrap_pred row H hr, wrap_succ row H hr]

/-- Row-fill loop semantics: after `for j in 0..n { rows[i][j] = v j }`,
cell `(r, c)` holds `v c` exactly when `r = i` and `c < n`. -/
theorem foldl_setRow (v : Nat → CellState) (i : Nat) :
    ∀ (n : Nat) (rows : Nat → Nat → CellState) (r c : Nat),
      ((List.range n).foldl (setRowStep i v) rows) r c =
        if r = i ∧ c < n then v c else rows r c := by
  intro n
  induction n with
  | zero =>
      intro rows r c
      simp
  | succ n ih =>
      intro rows r c
      rw [List.range_succ, List.foldl_append]
      simp only [List.foldl_cons, List.foldl_nil, setRowStep, setCell]
      rw [ih]
      by_cases h1 : r = i
      · by_cases h2 : c = n
        · simp [h1, h2]
        · by_cases h3 : c < n
          · simp [h1, h2, h3, Nat.lt_succ_of_lt h3]
          · have h4 : ¬ c < n + 1 := by omega
            simp [h1, h2, h3, h4]
      · simp [h1]

/-- Clear-loop semantics: the double loop of the `K` handler turns
every in-range cell `Off` and leaves out-of-range indices unchanged. -/
theorem foldl_clearRows (W : Nat) :
    ∀ (m : Nat) (rows : Nat → Nat → CellState) (r c : Nat),
      ((List.range m).foldl (clearRowStep W) rows) r c =
      if r < m ∧ c < W then CellState.Off else rows r c := by
  intro m
  induction m with
  | zero =>
      intro rows r c
      simp
  | succ m ih =>
      intro rows r c
      rw [List.range_succ, List.foldl_append]
      simp only [List.foldl_cons, List.foldl_nil, clearRowStep]
      rw [foldl_setRow, ih]
      by_cases h2 : c < W
      · by_cases h1 : r = m
        · simp [h1, h2]
        · by_cases h3 : r < m
          · have h4 : r < m + 1 := by omega
            simp [h1, h2, h3, h4]
          · have h4 : ¬ r < m + 1 := by omega
            simp [h1, h2, h3, h4]
      · simp [h2]

/-- Generation of the `n`-fold step iterate from a fresh world: the
`u32` counter wraps modulo `2^32`. -/
theorem generation_iterate_new (W H n : Nat) (rd wd : Nat → CellState) :
    ((World.update W H)^[n] (World.new W rd wd)).generation = n % 4294967296 := by
  induction n with
  | zero => rfl
  | succ n ih =>
      rw [Function.iterate_succ_apply']
      show (((World.update W H)^[n] (World.new W rd wd)).generation + 1) % 4294967296
        = (n + 1) % 4294967296
      rw [ih]
      omega

/-- The RGBA color written for each state in `World::draw`: opaque
white for `On`, opaque dark gray `0x59 0x57 0x52` for `Off`. -/
def rgbaOf : CellState → List Nat
  | CellState.On => [0xff, 0xff, 0xff, 0xff]
  | CellState.Off => [0x59, 0x57, 0x52, 0xff]

/-- The loop of `World::draw` over `frame.chunks_exact_mut(4)`: the
`i`-th complete 4-byte chunk is overwritten with the color of cell
`(i / WIDTH, i % WIDTH)`; bytes after the last complete chunk are left
untouched.  Indexing `self.rows[row]` with `row >= HEIGHT` is an
out-of-bounds panic in the source, modelled as `none`; a frame of at
most `4*W*H` bytes never reaches it.  There is no buffer-size check. -/
def drawAux (W H : Nat) (rows : Nat → Nat → CellState) :
    Nat → List Nat → Option (List Nat)
  | i, _ :: _ :: _ :: _ :: rest =>
      if i / W < H then
        match drawAux W H rows (i + 1) rest with
        | some out => some (rgbaOf (rows (i / W) (i % W)) ++ out)
        | none => none
      else none
  | _, rest => some rest

/-- `World::draw(&self, frame: &mut [u8])`: runs the chunk loop from
chunk index 0.  It borrows the grid immutably; the returned value is
the new frame contents only, so the grid is untouched by construction. -/
def World.draw (W H : Nat) (w : World) (frame : List Nat) : Option (List Nat) :=
  drawAux W H w.rows 0 frame

/-- Every color is exactly 4 bytes. -/
theorem length_rgbaOf (c : CellState) : (rgbaOf c).length = 4 := by
  cases c <;> rfl

/-- Dropping `n + 4` elements of a list starting with four conses skips
them and drops `n` from the tail. -/
theorem drop_cons_four (a b c d : Nat) (t : List Nat) (n : Nat) :
    (a :: b :: c :: d :: t).drop (n + 4) = t.drop n := rfl

/-- Dropping `n + 4` elements past a prepended color skips the color. -/
theorem drop_rgba_four (s : CellState) (t : List Nat) (n : Nat) :
    (rgbaOf s ++ t).drop (n + 4) = t.drop n := by
  cases s <;> rfl

/-- Taking 4 elements of a prepended color yields the color. -/
theorem take_rgba (s : CellState) (t : List Nat) :
    (rgbaOf s ++ t).take 4 = rgbaOf s := by
  cases s <;> rfl

/-- Full characterization of the chunk loop, for frames of at most
`4*W*H` bytes: it succeeds, preserves the byte count, leaves the bytes
after the last complete 4-byte chunk unchanged, and writes chunk `m`
with the color of cell `((i+m) / W, (i+m) % W)`. -/
theorem drawAux_spec (W H : Nat) (rows : Nat → Nat → CellState) :
    ∀ (fuel : Nat) (frame : List Nat) (i : Nat),
      frame.length ≤ fuel →
      i + frame.length / 4 ≤ W * H →
      0 < W →
      ∃ out, drawAux W H rows i frame = some out ∧
        out.length = frame.length ∧
        out.drop (4 * (frame.length / 4)) = frame.drop (4 * (frame.length / 4)) ∧
        ∀ m, m < frame.length / 4 →
          (out.drop (4 * m)).take 4 = rgbaOf (rows ((i + m) / W) ((i + m) % W)) := by
  intro fuel
  induction fuel with
  | zero =>
      intro frame i hfl _ _
      have hnil : frame = [] := List.eq_nil_of_length_eq_zero (Nat.le_zero.mp hfl)
      subst hnil
      exact ⟨[], rfl, rfl, rfl, by intro m hm; simp at hm⟩
  | succ fuel ih =>
      intro frame i hfl hiwh hW
      rcases frame with _ | ⟨b0, frame⟩
      · exact ⟨[], rfl, rfl, rfl, by intro m hm; simp at hm⟩
      rcases frame with _ | ⟨b1, frame⟩
      · exact ⟨[b0], rfl, rfl, rfl,
          by intro m hm; simp only [List.length_cons, List.length_nil] at hm; omega⟩
      rcases frame with _ | ⟨b2, frame⟩
      · exact ⟨[b0, b1], rfl, rfl, rfl,
          by intro m hm; simp only [List.length_cons, List.length_nil] at hm; omega⟩
      rcases frame with _ | ⟨b3, rest⟩
      · exact ⟨[b0, b1, b2], rfl, rfl, rfl,
          by intro m hm; simp only [List.length_cons, List.length_nil] at hm; omega⟩
      have hlen4 : (b0 :: b1 :: b2 :: b3 :: rest).length = rest.length + 4 := by
        simp [List.length_cons]
      have hq : (rest.length + 4) / 4 = rest.length / 4 + 1 :=
        Nat.add_div_right _ (by omega)
      have hi : i < W * H := by
        rw [hlen4, hq] at hiwh
        omega
      have hrow : i / W < H := by
        rw [Nat.div_lt_iff_lt_mul hW, Nat.mul_comm H W]
        exact hi
      obtain ⟨out', heq', hlen', hdrop', hchunk'⟩ :=
        ih rest (i + 1)
          (by rw [hlen4] at hfl; omega)
          (by rw [hlen4, hq] at hiwh; omega)
          hW
      refine ⟨rgbaOf (rows (i / W) (i % W)) ++ out', ?_, ?_, ?_, ?_⟩
      · simp only [drawAux]
        rw [if_pos hrow, heq']
      · rw [List.length_append, length_rgbaOf, hlen', hlen4]
        omega
      · rw [hlen4, hq]
        have e : 4 * (rest.length / 4 + 1) = 4 * (rest.length / 4) + 4 := by omega
        rw [e, drop_rgba_four, drop_cons_four]
        exact hdrop'
      · rw [hlen4, hq]
        intro m hm
        cases m with
        | zero =>
            simp only [Nat.mul_zero, List.drop_zero, Nat.add_zero]
            exact take_rgba _ _
        | succ m =>
            have e : 4 * (m + 1) = 4 * m + 4 := by omega
            rw [e, drop_rgba_four]
            have hm' : m < rest.length / 4 := by omega
            rw [hchunk' m hm']
            have e2 : i + 1 + m = i + (m + 1) := by omega
            rw [e2]

/-- All 512 keys ever inserted by `randomize_rules`, one per 9-bit pattern. -/
def keyList : List InputState := (List.range 512).map inputStateOfU32

/-- The 512 decoded key patterns are pairwise distinct. -/
theorem keyList_nodup : keyList.Nodup := by
  refine List.Nodup.map_on ?_ (List.nodup_range 512)
  intro i hi j hj hEq
  rw [List.mem_range] at hi hj
  have h1 := encode_decode i hi
  have h2 := encode_decode j hj
  rw [hEq] at h1
  exact h1.symm.trans h2

/-- Every 9-tuple occurs among the decoded keys. -/
theorem mem_keyList (x : InputState) : x ∈ keyList := by
  rw [← decode_encode x]
  exact List.mem_map_of_mem _ (List.mem_range.mpr (encode_lt x))

/-- Constant all-`Off` Bernoulli stream, a concrete test generator. -/
def constOff : Nat → CellState := fun _ => CellState.Off

/-- Constant seeded generator: every seed yields the all-`Off` stream. -/
def genConst : Nat → Nat → CellState := fun _ _ => CellState.Off

/-- A concrete world whose cells are all `Off`. -/
def offWorld : World :=
  { rows := fun _ _ => CellState.Off, rules := fun _ => none, generation := 0 }

/-- A concrete 2x2-relevant world with a single `On` cell at `(0, 0)`. -/
def mixedWorld : World :=
  { rows := fun r c => if r = 0 ∧ c = 0 then CellState.On else CellState.Off
    rules := fun _ => none
    generation := 0 }

/-- A 15-byte frame: one byte short of `4 * (2 * 2)`. -/
def shortFrame : List Nat := List.replicate 15 0

/-- A 16-byte frame: exactly `4 * (2 * 2)`. -/
def fullFrame : List Nat := List.replicate 16 0

/-- Claim C1: one step writes, for every cell `(r, c)`, the rule-table
output (defaulting to `Off` on a missing entry) for the 9-tuple
gathered in the fixed order upper-left, upper, upper-right, left,
center, right, lower-left, lower, lower-right, with both coordinates
wrapped toroidally (`row±1` modulo the height, `col±1` modulo the
width); every neighborhood is read from the pre-step grid `w.rows`,
and the new grid is a pure function of it (the scratch `next_state`
replaces `rows` only after all cells are computed). -/
theorem update_gathers_wrapped_neighborhood (W H : Nat) (w : World) (row col : Nat) :
    (World.update W H w).rows row col =
      if row < H ∧ col < W then
        lookupOrOff w.rules (neighborhoodMod W H w.rows row col)
      else CellState.Off := by
  show (if row < H ∧ col < W then
      lookupOrOff w.rules (neighborhood W H w.rows row col)
    else CellState.Off) = _
  by_cases h : row < H ∧ col < W
  · rw [if_pos h, if_pos h, neighborhood_eq_mod W H w.rows row col h.1 h.2]
  · rw [if_neg h, if_neg h]

/-- Claim C2: decoding the encoded index reproduces every 9-tuple of
cell states — `From<u32> for InputState` is the exact inverse of
`From<[CellState; 9]> for RuleState` on all 512 patterns. -/
theorem decode_encode_roundtrip (x : InputState) :
    inputStateOfU32 (ruleStateOfCells x).val = x :=
  decode_encode x

/-- Claim C3 counterexample: a buffer one byte short of `4*width*height`
does NOT fail — `World::draw` has no size check and no
`BufferSizeMismatch` error; it simply fills the three complete 4-byte
chunks and leaves the remaining 3 bytes untouched. -/
theorem draw_mismatched_buffer_succeeds_cex :
    World.draw 2 2 offWorld shortFrame =
      some [0x59, 0x57, 0x52, 0xff, 0x59, 0x57, 0x52, 0xff,
        0x59, 0x57, 0x52, 0xff, 0, 0, 0] := by
  decide

/-- Claim C3 (amended): `World::draw` performs no buffer-size check and
reports no error; on any buffer of at most `4*width*height` bytes it
succeeds, overwrites only the complete 4-byte chunks, preserves the
byte count, and leaves the bytes after the last complete chunk
unchanged.  The grid is unmodified by construction (`draw` borrows the
world immutably and returns only the frame). -/
theorem draw_no_size_check (W H : Nat) (w : World) (frame : List Nat)
    (hW : 0 < W) (hlen : frame.length ≤ 4 * (W * H)) :
    ∃ out, World.draw W H w frame = some out ∧
      out.length = frame.length ∧
      out.drop (4 * (frame.length / 4)) = frame.drop (4 * (frame.length / 4)) := by
  obtain ⟨out, heq, hl, hdrop, _⟩ :=
    drawAux_spec W H w.rows frame.length frame 0 (Nat.le_refl _) (by omega) hW
  exact ⟨out, heq, hl, hdrop⟩

/-- Witness for C3 (amended) at the 15-byte buffer of the counterexample. -/
theorem draw_no_size_check_witness :
    ∃ out, World.draw 2 2 offWorld shortFrame = some out ∧
      out.length = shortFrame.length ∧
      out.drop (4 * (shortFrame.length / 4)) = shortFrame.drop (4 * (shortFrame.length / 4)) :=
  draw_no_size_check 2 2 offWorld shortFrame (by decide) (by decide)

/-- Claim C4: for every draw stream (hence for every seed), the table
built by `randomize_rules` is total: every 9-tuple key has a stored
output, and so does the decoding of every index whatsoever. -/
theorem randomize_rules_total (draws : Nat → CellState) (x : InputState) (i : Nat) :
    (randomize_rules draws x).isSome = true ∧
    (randomize_rules draws (inputStateOfU32 i)).isSome = true := by
  constructor
  · rw [randomize_rules_eq_last]
    rfl
  · rw [randomize_rules_eq_last]
    rfl

/-- Claim C5: `randomize_rules` is deterministic in its seed.  The
generator is `ChaCha8Rng::seed_from_u64(seed)`, a pure function of the
64-bit seed with no system entropy, modelled by the stream `gen seed`;
two calls with equal seeds therefore produce identical rule tables. -/
theorem randomize_rules_seed_deterministic (gen : Nat → Nat → CellState)
    (seed1 seed2 : Nat) (h : seed1 = seed2) :
    randomize_rules (gen seed1) = randomize_rules (gen seed2) := by
  rw [h]

/-- Witness for C5 at seed 42. -/
theorem randomize_rules_seed_deterministic_witness :
    randomize_rules (genConst 42) = randomize_rules (genConst 42) :=
  randomize_rules_seed_deterministic genConst 42 42 rfl

/-- Claim C6 counterexample: the generation counter is a `u32` and
wraps: after `2^32` steps from a fresh world it is `0`, not `2^32`, so
"after n steps it equals n" fails at `n = 2^32`. -/
theorem generation_not_n_after_wrap_cex :
    ((World.update 1 1)^[4294967296]
      (World.new 1 constOff constOff)).generation ≠ 4294967296 := by
  rw [generation_iterate_new]
  omega

/-- Claim C6 (amended): the generation counter starts at 0 on
construction and each step increments it by exactly 1 modulo `2^32`
(it is a `u32`); after `n` steps from a fresh world it equals
`n % 2^32` — hence exactly `n` for every `n < 2^32` — and the clear
operation leaves it unchanged. -/
theorem generation_counter (W H n : Nat) (rd wd : Nat → CellState) (w : World) :
    (World.new W rd wd).generation = 0 ∧
    ((World.update W H)^[n] (World.new W rd wd)).generation = n % 4294967296 ∧
    (World.update W H w).generation = (w.generation + 1) % 4294967296 ∧
    (World.clear W H w).generation = w.generation :=
  ⟨rfl, generation_iterate_new W H n rd wd, rfl, rfl⟩

/-- Claim C7: on a buffer of exactly `4*width*height` bytes, rendering
writes 4 bytes per cell in row-major order: the 4-byte chunk at index
`row*width+col` is the fixed RGBA color of that cell — opaque white
for `On` and opaque dark gray `0x59 0x57 0x52` for `Off`. -/
theorem draw_rgba_per_cell (W H : Nat) (w : World) (frame : List Nat) (r c : Nat)
    (hW : 0 < W) (hlen : frame.length = 4 * (W * H)) (hr : r < H) (hc : c < W) :
    ∃ out, World.draw W H w frame = some out ∧
      out.length = 4 * (W * H) ∧
      (out.drop (4 * (r * W + c))).take 4 = rgbaOf (w.rows r c) ∧
      rgbaOf CellState.On = [0xff, 0xff, 0xff, 0xff] ∧
      rgbaOf CellState.Off = [0x59, 0x57, 0x52, 0xff] := by
  obtain ⟨out, heq, hl, _, hchunk⟩ :=
    drawAux_spec W H w.rows frame.length frame 0 (Nat.le_refl _) (by omega) hW
  have hmul : (r + 1) * W = r * W + W := by ring
  have hcomm : H * W = W * H := Nat.mul_comm H W
  have hm2 : (r + 1) * W ≤ H * W := Nat.mul_le_mul_right W hr
  have hmlt : r * W + c < W * H := by omega
  have hchunkm := hchunk (r * W + c) (by omega)
  have hrw : r * W + c = c + W * r := by ring
  have hdiv : (0 + (r * W + c)) / W = r := by
    rw [Nat.zero_add, hrw, Nat.add_mul_div_left c r hW, Nat.div_eq_of_lt hc]
    omega
  have hmod : (0 + (r * W + c)) % W = c := by
    rw [Nat.zero_add, hrw, Nat.add_mul_mod_self_left]
    exact Nat.mod_eq_of_lt hc
  rw [hdiv, hmod] at hchunkm
  exact ⟨out, heq, by omega, hchunkm, rfl, rfl⟩

/-- Witness for C7 on a 2x2 grid with a full 16-byte buffer, cell (1,0). -/
theorem draw_rgba_per_cell_witness :
    ∃ out, World.draw 2 2 mixedWorld fullFrame = some out ∧
      out.length = 4 * (2 * 2) ∧
      (out.drop (4 * (1 * 2 + 0))).take 4 = rgbaOf (mixedWorld.rows 1 0) ∧
      rgbaOf CellState.On = [0xff, 0xff, 0xff, 0xff] ∧
      rgbaOf CellState.Off = [0x59, 0x57, 0x52, 0xff] :=
  draw_rgba_per_cell 2 2 mixedWorld fullFrame 1 0 (by decide) (by decide)
    (by decide) (by decide)

/-- Claim C8: the clear operation (the `K` key handler) sets every
in-range cell to `Off` whatever the prior grid contents, touches no
out-of-range index, and changes neither the rule table nor the
generation counter. -/
theorem clear_sets_all_off (W H : Nat) (w : World) (r c : Nat) :
    ((World.clear W H w).rows r c =
      if r < H ∧ c < W then CellState.Off else w.rows r c) ∧
    (World.clear W H w).rules = w.rules ∧
    (World.clear W H w).generation = w.generation :=
  ⟨foldl_clearRows W H w.rows r c, rfl, rfl⟩

/-- Claim C9: `World::new` initializes every cell to `Off` and then
seeds only row 0 with the per-cell coin flips `wd`: after construction
row 0 holds the draws (on in-range columns) and every cell of every
row with index at least 1 is `Off`, regardless of the draws. -/
theorem new_seeds_only_row_zero (W : Nat) (rd wd : Nat → CellState) (r c j : Nat) :
    (World.new W rd wd).rows (r + 1) c = CellState.Off ∧
    (World.new W rd wd).rows 0 j = (if j < W then wd j else CellState.Off) := by
  constructor
  · show ((List.range W).foldl (setRowStep 0 wd) (fun _ _ => CellState.Off)) (r + 1) c
      = CellState.Off
    rw [foldl_setRow]
    simp
  · show ((List.range W).foldl (setRowStep 0 wd) (fun _ _ => CellState.Off)) 0 j = _
    rw [foldl_setRow]
    by_cases hj : j < W
    · simp [hj]
    · simp [hj]

/-- Claim C10: the map built by `randomize_rules` has exactly 512
distinct keys — the decodings of `0..512`, which exhaust `InputState` —
even though 362880 inserts are performed, because the u32-to-InputState
conversion reads only bits 0-8, so all indices with equal low 9 bits
collide and later inserts overwrite earlier ones; the final value at
key `x` is the draw made at `e + 512*((362879-e)/512)` where
`e = encode x`: the largest index below 362880 congruent to `e`
modulo 512 (it is below 362880, congruent to `e`, and the next index
congruent to `e` is at least 362880). -/
theorem randomize_rules_key_collision_structure (draws : Nat → CellState) (x : InputState) :
    keyList.Nodup ∧ keyList.length = 512 ∧ x ∈ keyList ∧
    (ruleStateOfCells x).val + 512 * ((362879 - (ruleStateOfCells x).val) / 512) < 362880 ∧
    ((ruleStateOfCells x).val + 512 * ((362879 - (ruleStateOfCells x).val) / 512)) % 512
      = (ruleStateOfCells x).val ∧
    362880 ≤ (ruleStateOfCells x).val + 512 * ((362879 - (ruleStateOfCells x).val) / 512) + 512 ∧
    randomize_rules draws x =
      some (draws ((ruleStateOfCells x).val +
        512 * ((362879 - (ruleStateOfCells x).val) / 512))) := by
  have he := encode_lt x
  refine ⟨keyList_nodup, ?_, mem_keyList x, by omega, by omega, by omega,
    randomize_rules_eq_last draws x⟩
  simp [keyList]

end Cellulars
